import Mathlib

/-!
# Verification of the viv loader utilities

Shallow embedding of the channel-statistics engine and small utilities of the
viv repository (`packages/loaders/src/utils.ts` and `avivator/src/utils.js`).

Modelling conventions:

* Numeric pixel buffers are embedded as `List Int`.  All properties verified
  here (selection ranks, minima/maxima, permutation and determinism facts)
  depend only on the order and multiset of the samples, which integers model
  exactly; JavaScript's float64 samples are order-isomorphic on these
  operations (NaN-free data).
* `mean` and the variance numerator are computed in `ℚ` (exact arithmetic);
  the source computes them in float64.  The source's standard deviation
  `sd = (sumSquared / len) ** 0.5` is an irrational square root, so the
  embedding carries the radicand `sdSq = sumSquared / len` instead; `sd` is
  determined by it, and no claim inspects the value of `sd` itself.
* The external npm library `quickselect` (Floyd–Rivest selection; its source
  is not part of this repository) is modelled by its documented contract,
  captured in `SelectSpec`: a call `quickselect(arr, k, left, right)`
  rearranges `arr` in place so that `arr[k]` holds the element of rank
  `k - left` within the subrange `[left, right]`, everything at `[left, k)`
  is `≤ arr[k]`, everything at `(k, right]` is `≥ arr[k]`, positions outside
  `[left, right]` are untouched, the whole array stays a permutation of its
  input, and a call with `right ≤ left` leaves the array unchanged (the
  library's loop `while (right > left)` exits immediately).  `sortSelect`
  below is a concrete executable refinement of that contract used for
  evaluation; universally quantified theorems are stated over any `qs`
  satisfying `SelectSpec`.
* Division such as `arr.length / 2` is Nat floor division, matching the
  source's `Math.floor(arr.length / 2)`.  The cutoff ranks
  `Math.floor(m * 0.0005)` and `Math.floor(m * (1 - 0.0005))` are embedded
  as `m / 2000` and `m * 1999 / 2000`; the float64 products agree with the
  exact rational values after `floor` for every array length below `2^52`.
-/

namespace Viv

/-- A numeric pixel buffer (`TypedArray` in the source). -/
abbrev Buffer := List Int

/-- Sorting a list of samples ascending (the order induced by the library's
`defaultCompare`); the canonical order that rank selection refers to. -/
def sortList (l : List Int) : List Int := l.insertionSort (· ≤ ·)

/-- The inclusive subrange `[l, r]` of a buffer, as a list. -/
def window (a : List Int) (l r : Nat) : List Int := (a.drop l).take (r + 1 - l)

/-- Executable model of the external `quickselect` library: a deterministic
refinement of its documented postcondition (see the header).  In-contract it
realizes the strongest rearrangement (the subrange fully sorted), which fixes
the same observables — the value at the selected rank, the partition
inequalities, the untouched outside, and the multiset — as the library's
Floyd–Rivest implementation.  A call whose window is trivial (`r ≤ l`) or out
of bounds leaves the buffer unchanged, as the library's `while (right > left)`
loop does. -/
def sortSelect (a : List Int) (k l r : Nat) : List Int :=
  if l < r ∧ r < a.length then a.take l ++ sortList (window a l r) ++ a.drop (r + 1) else a

/-- The contract of the external `quickselect` library
(`quickselect(arr, k, left, right)`), as used by `getChannelStats`. -/
structure SelectSpec (qs : List Int → Nat → Nat → Nat → List Int) : Prop where
  size_eq : ∀ a k l r, (qs a k l r).length = a.length
  perm : ∀ a k l r, (qs a k l r).Perm a
  noop : ∀ a k l r, r ≤ l → qs a k l r = a
  frame : ∀ a k l r, l ≤ k → k ≤ r → r < a.length → ∀ i, i < a.length → (i < l ∨ r < i) →
    (qs a k l r).getD i 0 = a.getD i 0
  window_perm : ∀ a k l r, l ≤ k → k ≤ r → r < a.length →
    (window (qs a k l r) l r).Perm (window a l r)
  rank : ∀ a k l r, l ≤ k → k ≤ r → r < a.length →
    (qs a k l r).getD k 0 = (sortList (window a l r)).getD (k - l) 0
  part_le : ∀ a k l r, l ≤ k → k ≤ r → r < a.length → ∀ i, l ≤ i → i < k →
    (qs a k l r).getD i 0 ≤ (qs a k l r).getD k 0
  part_ge : ∀ a k l r, l ≤ k → k ≤ r → r < a.length → ∀ i, k < i → i ≤ r →
    (qs a k l r).getD k 0 ≤ (qs a k l r).getD i 0
  max_stay : ∀ a k l r, l ≤ k → k ≤ r → r < a.length →
    (∀ i, l ≤ i → i ≤ r → a.getD i 0 ≤ a.getD r 0) →
    (qs a k l r).getD r 0 = a.getD r 0

/-! ## getChannelStats (packages/loaders/src/utils.ts, lines 28-94) -/

/-- One step of the first linear pass keeping the running minimum
(`if (arr[len] < min) min = arr[len]`); `none` models the `Infinity`
sentinel. -/
def jsMinStep (acc : Option Int) (x : Int) : Option Int :=
  match acc with
  | none => some x
  | some m => some (if x < m then x else m)

/-- One step of the first linear pass keeping the running maximum
(`if (arr[len] > max) max = arr[len]`); `none` models the `-Infinity`
sentinel. -/
def jsMaxStep (acc : Option Int) (x : Int) : Option Int :=
  match acc with
  | none => some x
  | some m => some (if m < x then x else m)

/-- Running minimum of the first pass of `getChannelStats`.  The source
iterates indices downward; minimum is order-insensitive. -/
def jsMin (arr : Buffer) : Option Int := arr.foldl jsMinStep none

/-- Running maximum of the first pass of `getChannelStats`. -/
def jsMax (arr : Buffer) : Option Int := arr.foldl jsMaxStep none

/-- Running `total` of the first pass (exact; integer addition is
order-insensitive). -/
def sampleTotal (arr : Buffer) : Int := arr.foldl (· + ·) 0

/-- `mean = total / arr.length` (exact rational; `0` in place of the
source's NaN when the buffer is empty). -/
def sampleMean (arr : Buffer) : ℚ := (sampleTotal arr : ℚ) / (arr.length : ℚ)

/-- The radicand of the standard deviation:
`sumSquared / arr.length` with `sumSquared = Σ (arr[i] - mean)²`.
The source's `sd` is its square root. -/
def sampleSdSq (arr : Buffer) : ℚ :=
  (arr.foldl (fun acc x => acc + ((x : ℚ) - sampleMean arr) ^ 2) 0) / (arr.length : ℚ)

/-- `const mid = Math.floor(arr.length / 2)`. -/
def midLoc (arr : Buffer) : Nat := arr.length / 2

/-- `const firstQuartileLocation = Math.floor(arr.length / 4)`. -/
def q1Loc (arr : Buffer) : Nat := arr.length / 4

/-- `const thirdQuartileLocation = 3 * Math.floor(arr.length / 4)`. -/
def q3Loc (arr : Buffer) : Nat := 3 * (arr.length / 4)

/-- The buffer after `quickselect(arr, mid)` (library defaults
`left = 0`, `right = arr.length - 1`). -/
def statsArr1 (qs : List Int → Nat → Nat → Nat → List Int) (arr : Buffer) : Buffer :=
  qs arr (midLoc arr) 0 (arr.length - 1)

/-- The buffer after `quickselect(arr, firstQuartileLocation, 0, mid)`. -/
def statsArr2 (qs : List Int → Nat → Nat → Nat → List Int) (arr : Buffer) : Buffer :=
  qs (statsArr1 qs arr) (q1Loc arr) 0 (midLoc arr)

/-- The buffer after `quickselect(arr, thirdQuartileLocation, mid, arr.length - 1)`;
this is the state of the caller's buffer when `getChannelStats` returns. -/
def statsArr3 (qs : List Int → Nat → Nat → Nat → List Int) (arr : Buffer) : Buffer :=
  qs (statsArr2 qs arr) (q3Loc arr) (midLoc arr) (arr.length - 1)

/-- `const cutoffArr = arr.filter(i => i > 0)` — a fresh array of the
strictly-positive samples (read from the buffer after the three selections). -/
def cutoffArr (qs : List Int → Nat → Nat → Nat → List Int) (arr : Buffer) : Buffer :=
  (statsArr3 qs arr).filter (fun x => decide (0 < x))

/-- `Math.floor(cutoffArr.length * (1 - 0.0005))` (exact; see the header). -/
def topCutoffLoc (m : Nat) : Nat := m * 1999 / 2000

/-- `Math.floor(cutoffArr.length * 0.0005)` (exact; see the header). -/
def bottomCutoffLoc (m : Nat) : Nat := m / 2000

/-- The filtered array after `quickselect(cutoffArr, topCutoffLocation)`. -/
def cutoff1 (qs : List Int → Nat → Nat → Nat → List Int) (arr : Buffer) : Buffer :=
  qs (cutoffArr qs arr) (topCutoffLoc (cutoffArr qs arr).length) 0 ((cutoffArr qs arr).length - 1)

/-- The filtered array after
`quickselect(cutoffArr, bottomCutoffLocation, 0, topCutoffLocation)`;
both contrast limits are read from this state. -/
def cutoff2 (qs : List Int → Nat → Nat → Nat → List Int) (arr : Buffer) : Buffer :=
  qs (cutoff1 qs arr) (bottomCutoffLoc (cutoffArr qs arr).length)
    0 (topCutoffLoc (cutoffArr qs arr).length)

/-- The record returned by `getChannelStats`.  `sdSq` carries the radicand of
the source's `sd` (see the header); `domain` and `contrastLimits` are the
source's two-element arrays as pairs. -/
structure ChannelStats where
  mean : ℚ
  sdSq : ℚ
  q1 : Int
  q3 : Int
  median : Int
  domain : Int × Int
  contrastLimits : Int × Int
deriving DecidableEq, Repr

/-- `getChannelStats` (packages/loaders/src/utils.ts lines 28-94),
parameterized by the selection primitive.  Reads happen at the same points of
the mutation sequence as in the source: `median` from the buffer after the
first selection, `q1` after the second, `q3` after the third, and both
contrast limits from the filtered array after its two selections.  The
`x || 0` fallback on the contrast reads is modelled by `getD _ 0`: the
filtered samples are strictly positive, so `0` arises exactly when the read
is out of bounds (empty filtered array), as in the source. -/
def getChannelStatsWith (qs : List Int → Nat → Nat → Nat → List Int) (arr : Buffer) :
    ChannelStats :=
  { mean := sampleMean arr
    sdSq := sampleSdSq arr
    q1 := (statsArr2 qs arr).getD (q1Loc arr) 0
    q3 := (statsArr3 qs arr).getD (q3Loc arr) 0
    median := (statsArr1 qs arr).getD (midLoc arr) 0
    domain := ((jsMin arr).getD 0, (jsMax arr).getD 0)
    contrastLimits := ((cutoff2 qs arr).getD (bottomCutoffLoc (cutoffArr qs arr).length) 0,
                       (cutoff2 qs arr).getD (topCutoffLoc (cutoffArr qs arr).length) 0) }

/-- `getChannelStats` instantiated with the executable selection model. -/
def getChannelStats (arr : Buffer) : ChannelStats := getChannelStatsWith sortSelect arr

/-- The error taxonomy of the spec that the statistics engine can raise. -/
inductive StatsError where
  | emptyBuffer
deriving DecidableEq, Repr

/-- Modelled from the spec: the reimplementation contract
`computeStats(buffer) -> ChannelStats` must explicitly reject an empty input
buffer with `EmptyBufferError` instead of silently producing NaN statistics
(spec section 4.5, "Edge cases").  The guard itself exists only in the spec —
the source `getChannelStats` has no such check — so it is modelled here from
the spec's words, wrapping the embedded source function. -/
def computeStats (arr : Buffer) : Except StatsError ChannelStats :=
  if arr.isEmpty then .error .emptyBuffer else .ok (getChannelStats arr)

/-! ## avivator utilities (avivator/src/utils.js) -/

/-- The per-plane statistics record consumed by avivator's
`getSingleSelectionStats3D` (`stats.domain`, `stats.autoSliders`). -/
structure AvivStats where
  domain : Int × Int
  autoSliders : Int × Int
deriving DecidableEq, Repr

/-- Modelled from the spec: avivator imports `getChannelStats` from the
repository's bundled `dist` build, whose source file is not in the snapshot;
its call sites read the contrast-limit pair under the field name
`autoSliders` (`const { domain, autoSliders: slider } = selectionStats`).
Per spec section 4.5 it is the same statistics computation, so it is modelled
as the embedded `getChannelStats` with `contrastLimits` exposed as
`autoSliders`. -/
def getChannelStatsAviv (arr : Buffer) : AvivStats :=
  { domain := (getChannelStats arr).domain
    autoSliders := (getChannelStats arr).contrastLimits }

/-- One pyramid level as `getSingleSelectionStats3D` sees it: axis labels,
shape, and the raster of the z-plane selected by `{ ...selection, z }` (the
other selection coordinates are fixed throughout the call and are therefore
not modelled). -/
structure RasterSource where
  labels : List String
  shape : List Nat
  raster : Nat → Buffer

/-- The merged result of `getSingleSelectionStats3D`. -/
structure Stats3D where
  domain : Int × Int
  slider : Int × Int
deriving DecidableEq, Repr

/-- `shape[labels.indexOf('z')] >> (loader.length - 1)` — the z extent of the
effective coarsest-resolution volume. -/
def sizeZOf (loader : List RasterSource) (src : RasterSource) : Nat :=
  (src.shape.getD (src.labels.indexOf "z") 0) >>> (loader.length - 1)

/-- `getSingleSelectionStats3D` (avivator/src/utils.js lines 285-319):
statistics of the z-planes `0`, `Math.floor(sizeZ / 2)` and `sizeZ - 1` of
the last (coarsest) pyramid level, merged by taking the minimum of the lower
bounds and the maximum of the upper bounds.  `none` models the crash on an
empty loader; `sizeZ - 1` is Nat subtraction (the source would request plane
`-1` when `sizeZ = 0`, which no backend can satisfy). -/
def getSingleSelectionStats3D (loader : List RasterSource) : Option Stats3D :=
  match loader.getLast? with
  | none => none
  | some lowResSource =>
    let sizeZ := sizeZOf loader lowResSource
    let stats0 := getChannelStatsAviv (lowResSource.raster 0)
    let statsMid := getChannelStatsAviv (lowResSource.raster (sizeZ / 2))
    let statsTop := getChannelStatsAviv (lowResSource.raster (sizeZ - 1))
    some { domain := (min (min stats0.domain.1 statsMid.domain.1) statsTop.domain.1,
                      max (max stats0.domain.2 statsMid.domain.2) statsTop.domain.2)
           slider := (min (min stats0.autoSliders.1 statsMid.autoSliders.1)
                        statsTop.autoSliders.1,
                      max (max stats0.autoSliders.2 statsMid.autoSliders.2)
                        statsTop.autoSliders.2) }

/-! ## getDims (packages/loaders/src/utils.ts, lines 156-168) -/

/-- Setting one entry of a JavaScript `Map` modelled as an insertion-ordered
association list: an existing key keeps its position and gets the new value,
a new key is appended. -/
def mapInsert (m : List (String × Nat)) (kv : String × Nat) : List (String × Nat) :=
  if m.any (fun p => p.1 == kv.1) then m.map (fun p => if p.1 == kv.1 then kv else p)
  else m ++ [kv]

/-- `new Map(entries)`: inserting the entries in order. -/
def jsMapOfList (ps : List (String × Nat)) : List (String × Nat) :=
  ps.foldl mapInsert []

/-- `labels.map((name, i) => [name, i])`. -/
def labelPairs (labels : List String) : List (String × Nat) :=
  (labels.enumFrom 0).map (fun p => (p.2, p.1))

/-- `Map.prototype.get`. -/
def mapGet (m : List (String × Nat)) (name : String) : Option Nat :=
  (m.find? (fun p => p.1 == name)).map (fun p => p.2)

/-- The two errors `getDims` can throw (`DuplicateLabelError`,
`UnknownDimensionError` in the spec's taxonomy). -/
inductive DimsError where
  | duplicateLabel
  | unknownDimension
deriving DecidableEq, Repr

/-- `getDims` (packages/loaders/src/utils.ts lines 156-168): builds a
label-to-index map, throws when the map is smaller than the label list
(a duplicated label), and returns a lookup that throws on unknown names. -/
def getDims (labels : List String) : Except DimsError (String → Except DimsError Nat) :=
  let lookup := jsMapOfList (labelPairs labels)
  if lookup.length ≠ labels.length then .error .duplicateLabel
  else .ok (fun name =>
    match mapGet lookup name with
    | some i => .ok i
    | none => .error .unknownDimension)

/-! ## tile sizing and interleaving (packages/loaders/src/utils.ts) -/

/-- `prevPowerOf2(x) = 2 ** Math.floor(Math.log2(x))` (lines 176-178).
`Nat.log2` is the exact floor of the base-2 logarithm for positive integers;
float64 `Math.log2` agrees with it after `floor` for every `x < 2 ^ 49`,
far beyond any TIFF tile extent. -/
def prevPowerOf2 (x : Nat) : Nat := 2 ^ Nat.log2 x

/-- `guessTiffTileSize` (lines 182-188), abstracted over the backend's
`image.getTileWidth()` / `image.getTileHeight()` values. -/
def guessTiffTileSize (tileWidth tileHeight : Nat) : Nat :=
  prevPowerOf2 (min tileWidth tileHeight)

/-- `isInterleaved` (packages/loaders/src/utils.ts lines 127-130 and the
identical copy in avivator/src/utils.js lines 138-141):
`shape[shape.length - 1] === 3 || shape[shape.length - 1] === 4`.
On an empty shape the source reads `undefined`, which compares unequal to
both; `getD _ 0` yields `0` with the same outcome. -/
def isInterleaved (shape : List Nat) : Bool :=
  let lastDimSize := shape.getD (shape.length - 1) 0
  lastDimSize == 3 || lastDimSize == 4

/-! ## Helper lemmas about sorting and windows -/

theorem sortList_perm (l : List Int) : (sortList l).Perm l :=
  List.perm_insertionSort (· ≤ ·) l

theorem sortList_length (l : List Int) : (sortList l).length = l.length :=
  (sortList_perm l).length_eq

theorem sortList_sorted (l : List Int) : List.Sorted (· ≤ ·) (sortList l) :=
  List.sorted_insertionSort (· ≤ ·) l

theorem sortList_eq_of_sorted {l m : List Int} (hp : l.Perm m)
    (hs : List.Sorted (· ≤ ·) l) : l = sortList m := by
  refine List.eq_of_perm_of_sorted ?_ hs (sortList_sorted m)
  exact hp.trans (sortList_perm m).symm

theorem sortList_getD_mono {l : List Int} {i j : Nat} (hij : i ≤ j)
    (hj : j < (sortList l).length) : (sortList l).getD i 0 ≤ (sortList l).getD j 0 := by
  have hi : i < (sortList l).length := lt_of_le_of_lt hij hj
  rw [List.getD_eq_getElem _ _ hi, List.getD_eq_getElem _ _ hj]
  exact (sortList_sorted l).rel_get_of_le (by exact hij)

theorem window_length {a : List Int} {l r : Nat} (hr : r < a.length) :
    (window a l r).length = r + 1 - l := by
  simp only [window, List.length_take, List.length_drop]
  omega

theorem window_getD {a : List Int} {l r i : Nat} (hr : r < a.length)
    (hi : i < r + 1 - l) : (window a l r).getD i 0 = a.getD (l + i) 0 := by
  have h1 : i < (window a l r).length := by rw [window_length hr]; exact hi
  have h2 : l + i < a.length := by omega
  rw [List.getD_eq_getElem _ _ h1, List.getD_eq_getElem _ _ h2]
  simp only [window]
  rw [List.getElem_take, List.getElem_drop]

theorem mem_window {a : List Int} {l r i : Nat} (hl : l ≤ i) (hi : i ≤ r)
    (hr : r < a.length) : a.getD i 0 ∈ window a l r := by
  have hlen : (window a l r).length = r + 1 - l := window_length hr
  have h1 : i - l < (window a l r).length := by omega
  rw [List.mem_iff_getElem]
  refine ⟨i - l, h1, ?_⟩
  rw [← List.getD_eq_getElem _ 0 h1, window_getD hr (by omega)]
  congr 1
  omega

theorem mem_window_elim {a : List Int} {l r : Nat} {x : Int} (hr : r < a.length)
    (hx : x ∈ window a l r) : ∃ i, l ≤ i ∧ i ≤ r ∧ a.getD i 0 = x := by
  rw [List.mem_iff_getElem] at hx
  obtain ⟨j, hj, hjx⟩ := hx
  have hlen : (window a l r).length = r + 1 - l := window_length hr
  refine ⟨l + j, by omega, by omega, ?_⟩
  rw [← window_getD hr (by omega), List.getD_eq_getElem _ _ hj, hjx]

/-- Splitting a buffer around an inclusive window. -/
theorem window_decomp (a : List Int) {l r : Nat} (hlr : l ≤ r) (hr : r < a.length) :
    a = a.take l ++ window a l r ++ a.drop (r + 1) := by
  have h1 : a.take l ++ a.drop l = a := List.take_append_drop l a
  have h2 : window a l r ++ a.drop (r + 1) = a.drop l := by
    have h3 : a.drop (r + 1) = (a.drop l).drop (r + 1 - l) := by
      rw [List.drop_drop]
      congr 1
      omega
    rw [h3, window]
    exact List.take_append_drop _ _
  rw [List.append_assoc, h2, h1]

theorem sortSelect_of_lt {a : List Int} {k l r : Nat} (hlr : l < r) (hr : r < a.length) :
    sortSelect a k l r = a.take l ++ sortList (window a l r) ++ a.drop (r + 1) := by
  simp [sortSelect, hlr, hr]

theorem length_take_of_le {a : List Int} {l : Nat} (h : l ≤ a.length) :
    (a.take l).length = l := by
  simp only [List.length_take]
  omega

/-- Reading any position inside the window of an applied `sortSelect`
returns the corresponding position of the sorted window. -/
theorem sortSelect_getD_mid (a : List Int) (k : Nat) {l r j : Nat} (h : l < r)
    (hr : r < a.length) (hlj : l ≤ j) (hjr : j ≤ r) :
    (sortSelect a k l r).getD j 0 = (sortList (window a l r)).getD (j - l) 0 := by
  have hwl : (sortList (window a l r)).length = r + 1 - l := by
    rw [sortList_length, window_length hr]
  have htl : (a.take l).length = l := length_take_of_le (by omega)
  have h1 : j < (a.take l ++ sortList (window a l r) ++ a.drop (r + 1)).length := by
    simp only [List.length_append, htl, hwl, List.length_drop]
    omega
  rw [sortSelect_of_lt h hr, List.getD_eq_getElem _ _ h1,
    List.getElem_append_left (by simp only [List.length_append, htl, hwl]; omega),
    List.getElem_append_right (by omega : (a.take l).length ≤ j)]
  have hidx : j - (a.take l).length = j - l := by omega
  rw [List.getD_eq_getElem _ _ (show j - l < (sortList (window a l r)).length by rw [hwl]; omega)]
  simp only [hidx]

/-- `sortSelect` with a trivial or out-of-bounds window leaves the buffer
unchanged. -/
theorem sortSelect_id {a : List Int} {k l r : Nat} (h : ¬(l < r ∧ r < a.length)) :
    sortSelect a k l r = a := by
  simp [sortSelect, h]

/-- The executable selection model satisfies the library contract. -/
theorem sortSelect_spec : SelectSpec sortSelect := by
  constructor
  case size_eq =>
    intro a k l r
    by_cases h : l < r ∧ r < a.length
    · rw [sortSelect_of_lt h.1 h.2]
      simp only [List.length_append, List.length_take, List.length_drop,
        sortList_length, window_length h.2]
      omega
    · rw [sortSelect_id h]
  case perm =>
    intro a k l r
    by_cases h : l < r ∧ r < a.length
    · rw [sortSelect_of_lt h.1 h.2]
      conv_rhs => rw [window_decomp a (le_of_lt h.1) h.2]
      exact List.Perm.append_right _ (List.Perm.append_left _ (sortList_perm _))
    · rw [sortSelect_id h]
  case noop =>
    intro a k l r hrl
    exact sortSelect_id (by omega)
  case frame =>
    intro a k l r _hlk _hkr hr i hi hout
    by_cases h : l < r
    · rw [sortSelect_of_lt h hr]
      have hwl : (sortList (window a l r)).length = r + 1 - l := by
        rw [sortList_length, window_length hr]
      have htl : (a.take l).length = l := length_take_of_le (by omega)
      rcases hout with hil | hri
      · have h1 : i < (a.take l ++ (sortList (window a l r) ++ a.drop (r + 1))).length := by
          simp only [List.length_append, htl, hwl, List.length_drop]
          omega
        rw [List.append_assoc, List.getD_eq_getElem _ _ h1,
          List.getElem_append_left (by omega), List.getElem_take,
          List.getD_eq_getElem _ _ (by omega : i < a.length)]
      · have h1 : i < (a.take l ++ sortList (window a l r) ++ a.drop (r + 1)).length := by
          simp only [List.length_append, htl, hwl, List.length_drop]
          omega
        have h2 : (a.take l ++ sortList (window a l r)).length = r + 1 := by
          simp only [List.length_append, htl, hwl]
          omega
        rw [List.getD_eq_getElem _ _ h1,
          List.getElem_append_right (by omega : (a.take l ++ sortList (window a l r)).length ≤ i),
          List.getElem_drop, List.getD_eq_getElem _ _ hi]
        have hidx : r + 1 + (i - (a.take l ++ sortList (window a l r)).length) = i := by
          omega
        simp only [hidx]
    · rw [sortSelect_id (by tauto)]
  case window_perm =>
    intro a k l r hlk hkr hr
    by_cases h : l < r
    · have hwl : (sortList (window a l r)).length = r + 1 - l := by
        rw [sortList_length, window_length hr]
      have htl : (a.take l).length = l := length_take_of_le (by omega)
      have hwin : window (a.take l ++ sortList (window a l r) ++ a.drop (r + 1)) l r
          = sortList (window a l r) := by
        show ((a.take l ++ sortList (window a l r) ++ a.drop (r + 1)).drop l).take (r + 1 - l)
            = sortList (window a l r)
        rw [List.append_assoc, List.drop_left' htl, List.take_left' hwl]
      rw [sortSelect_of_lt h hr, hwin]
      exact sortList_perm _
    · rw [sortSelect_id (by tauto)]
  case rank =>
    intro a k l r hlk hkr hr
    by_cases h : l < r
    · exact sortSelect_getD_mid a k h hr hlk hkr
    · have hlr : l = r := by omega
      subst hlr
      have hk : k = l := by omega
      subst hk
      rw [sortSelect_id (by tauto)]
      have h1 : (window a k k).length = 1 := by rw [window_length hr]; omega
      obtain ⟨x, hx⟩ := List.length_eq_one.mp h1
      have h3 := window_getD (a := a) (l := k) (r := k) (i := 0) hr (by omega)
      rw [hx] at h3
      have h2 : x = a.getD k 0 := by simpa using h3
      rw [hx, ← h2, Nat.sub_self]
      simp [sortList]
  case part_le =>
    intro a k l r hlk hkr hr i hli hik
    have h : l < r := by omega
    have hwl : (sortList (window a l r)).length = r + 1 - l := by
      rw [sortList_length, window_length hr]
    rw [sortSelect_getD_mid a k h hr hli (by omega),
      sortSelect_getD_mid a k h hr hlk hkr]
    exact sortList_getD_mono (by omega) (by rw [hwl]; omega)
  case part_ge =>
    intro a k l r hlk hkr hr i hki hir
    have h : l < r := by omega
    have hwl : (sortList (window a l r)).length = r + 1 - l := by
      rw [sortList_length, window_length hr]
    rw [sortSelect_getD_mid a k h hr (by omega) hir,
      sortSelect_getD_mid a k h hr hlk hkr]
    exact sortList_getD_mono (by omega) (by rw [hwl]; omega)
  case max_stay =>
    intro a k l r hlk hkr hr hmax
    by_cases h : l < r
    · have hwl : (sortList (window a l r)).length = r + 1 - l := by
        rw [sortList_length, window_length hr]
      rw [sortSelect_getD_mid a k h hr (by omega) le_rfl]
      have hle1 : a.getD r 0 ≤ (sortList (window a l r)).getD (r - l) 0 := by
        have hmem : a.getD r 0 ∈ sortList (window a l r) :=
          ((sortList_perm (window a l r)).mem_iff).mpr (mem_window (by omega) le_rfl hr)
        obtain ⟨j, hj, hjx⟩ := List.mem_iff_getElem.mp hmem
        rw [← hjx, ← List.getD_eq_getElem _ 0 hj]
        exact sortList_getD_mono (by rw [hwl] at hj; omega) (by rw [hwl]; omega)
      have hle2 : (sortList (window a l r)).getD (r - l) 0 ≤ a.getD r 0 := by
        have hmem : (sortList (window a l r)).getD (r - l) 0 ∈ sortList (window a l r) := by
          rw [List.getD_eq_getElem _ 0 (by rw [hwl]; omega)]
          exact List.getElem_mem _
        have hmem' : (sortList (window a l r)).getD (r - l) 0 ∈ window a l r :=
          ((sortList_perm (window a l r)).mem_iff).mp hmem
        obtain ⟨i, hli, hir, hieq⟩ := mem_window_elim hr hmem'
        rw [← hieq]
        exact hmax i hli hir
      exact le_antisymm hle2 hle1
    · rw [sortSelect_id (by tauto)]

/-! ## The first linear pass: running minimum and maximum -/

theorem jsMinFold_some : ∀ (l : List Int) (m : Int),
    ∃ v, l.foldl jsMinStep (some m) = some v ∧ v ≤ m ∧ (v = m ∨ v ∈ l) ∧ ∀ x ∈ l, v ≤ x := by
  intro l
  induction l with
  | nil => exact fun m => ⟨m, rfl, le_rfl, Or.inl rfl, by simp⟩
  | cons a t ih =>
    intro m
    obtain ⟨v, hv, hvm, hmem, hall⟩ := ih (if a < m then a else m)
    refine ⟨v, by simpa [jsMinStep] using hv, ?_, ?_, ?_⟩
    · by_cases hc : a < m
      · simp only [hc, if_pos] at hvm
        omega
      · simpa [hc] using hvm
    · rcases hmem with h1 | h1
      · by_cases hc : a < m
        · simp only [hc, if_pos] at h1
          exact Or.inr (h1 ▸ List.mem_cons_self a t)
        · simp only [hc, if_neg, if_false] at h1
          exact Or.inl h1
      · exact Or.inr (List.mem_cons_of_mem a h1)
    · intro x hx
      rcases List.mem_cons.mp hx with rfl | hxt
      · by_cases hc : x < m
        · simpa [hc] using hvm
        · simp only [hc, if_neg, if_false] at hvm
          omega
      · exact hall x hxt

theorem jsMaxFold_some : ∀ (l : List Int) (m : Int),
    ∃ v, l.foldl jsMaxStep (some m) = some v ∧ m ≤ v ∧ (v = m ∨ v ∈ l) ∧ ∀ x ∈ l, x ≤ v := by
  intro l
  induction l with
  | nil => exact fun m => ⟨m, rfl, le_rfl, Or.inl rfl, by simp⟩
  | cons a t ih =>
    intro m
    obtain ⟨v, hv, hvm, hmem, hall⟩ := ih (if m < a then a else m)
    refine ⟨v, by simpa [jsMaxStep] using hv, ?_, ?_, ?_⟩
    · by_cases hc : m < a
      · simp only [hc, if_pos] at hvm
        omega
      · simpa [hc] using hvm
    · rcases hmem with h1 | h1
      · by_cases hc : m < a
        · simp only [hc, if_pos] at h1
          exact Or.inr (h1 ▸ List.mem_cons_self a t)
        · simp only [hc, if_neg, if_false] at h1
          exact Or.inl h1
      · exact Or.inr (List.mem_cons_of_mem a h1)
    · intro x hx
      rcases List.mem_cons.mp hx with rfl | hxt
      · by_cases hc : m < x
        · simpa [hc] using hvm
        · simp only [hc, if_neg, if_false] at hvm
          omega
      · exact hall x hxt

/-- On a non-empty buffer the first pass returns the exact minimum. -/
theorem jsMin_spec (arr : Buffer) (h : arr ≠ []) :
    ∃ v, jsMin arr = some v ∧ v ∈ arr ∧ ∀ x ∈ arr, v ≤ x := by
  match arr, h with
  | a :: t, _ =>
    obtain ⟨v, hv, _hvm, hmem, hall⟩ := jsMinFold_some t a
    refine ⟨v, ?_, ?_, ?_⟩
    · simpa [jsMin, jsMinStep] using hv
    · rcases hmem with h1 | h1
      · exact h1 ▸ List.mem_cons_self a t
      · exact List.mem_cons_of_mem a h1
    · intro x hx
      rcases List.mem_cons.mp hx with rfl | hxt
      · exact _hvm
      · exact hall x hxt

/-- On a non-empty buffer the first pass returns the exact maximum. -/
theorem jsMax_spec (arr : Buffer) (h : arr ≠ []) :
    ∃ v, jsMax arr = some v ∧ v ∈ arr ∧ ∀ x ∈ arr, x ≤ v := by
  match arr, h with
  | a :: t, _ =>
    obtain ⟨v, hv, _hvm, hmem, hall⟩ := jsMaxFold_some t a
    refine ⟨v, ?_, ?_, ?_⟩
    · simpa [jsMax, jsMaxStep] using hv
    · rcases hmem with h1 | h1
      · exact h1 ▸ List.mem_cons_self a t
      · exact List.mem_cons_of_mem a h1
    · intro x hx
      rcases List.mem_cons.mp hx with rfl | hxt
      · exact _hvm
      · exact hall x hxt

/-! ## Rank decomposition around a partition pivot -/

theorem getD_take {L : List Int} {s i : Nat} (hi : i < s) :
    (L.take s).getD i 0 = L.getD i 0 := by
  by_cases hL : i < L.length
  · have h1 : i < (L.take s).length := by
      simp only [List.length_take]
      omega
    rw [List.getD_eq_getElem _ _ h1, List.getD_eq_getElem _ _ hL, List.getElem_take]
  · have h1 : (L.take s).length ≤ i := by
      simp only [List.length_take]
      omega
    rw [List.getD_eq_default _ _ h1, List.getD_eq_default _ _ (by omega)]

/-- If position `t` is a partition pivot of `L` (everything left is `≤ L[t]`,
everything right is `≥ L[t]`), the first `t + 1` entries of the sorted `L`
are the sorted first `t + 1` entries of `L`: the prefix holds exactly the
`t + 1` smallest samples. -/
theorem sortList_take_pivot {L : List Int} {t : Nat} (ht : t < L.length)
    (hlo : ∀ i, i < t → L.getD i 0 ≤ L.getD t 0)
    (hhi : ∀ j, t < j → j < L.length → L.getD t 0 ≤ L.getD j 0) :
    (sortList L).take (t + 1) = sortList (window L 0 t) := by
  have hw : window L 0 t = L.take (t + 1) := by
    simp [window]
  have hXlen : (window L 0 t).length = t + 1 := by
    rw [window_length ht]
    omega
  have happ : sortList (window L 0 t) ++ sortList (L.drop (t + 1)) = sortList L := by
    refine sortList_eq_of_sorted ?_ ?_
    · refine List.Perm.trans (List.Perm.append (sortList_perm _) (sortList_perm _)) ?_
      rw [hw, List.take_append_drop]
    · refine List.pairwise_append.mpr ⟨sortList_sorted _, sortList_sorted _, ?_⟩
      intro x hx y hy
      have hx' : x ∈ window L 0 t := ((sortList_perm _).mem_iff).mp hx
      have hy' : y ∈ L.drop (t + 1) := ((sortList_perm _).mem_iff).mp hy
      obtain ⟨i, _, hit, hieq⟩ := mem_window_elim ht hx'
      obtain ⟨j, hj, hjeq⟩ := List.mem_iff_getElem.mp hy'
      have hjlen : j < L.length - (t + 1) := by
        simpa [List.length_drop] using hj
      have hyj : y = L.getD (t + 1 + j) 0 := by
        rw [← hjeq, List.getElem_drop, ← List.getD_eq_getElem _ 0 (by omega)]
      have h1 : x ≤ L.getD t 0 := by
        rcases Nat.lt_or_ge i t with hlt | hge
        · exact hieq ▸ hlo i hlt
        · have : i = t := by omega
          exact hieq ▸ this ▸ le_rfl
      have h2 : L.getD t 0 ≤ y := hyj ▸ hhi (t + 1 + j) (by omega) (by omega)
      exact le_trans h1 h2
  rw [← happ, List.take_left' (by rw [sortList_length, hXlen])]

/-! ## getDims helpers: the insertion-ordered map model -/

theorem any_key_eq (m : List (String × Nat)) (k : String) :
    m.any (fun p => p.1 == k) = true ↔ k ∈ m.map Prod.fst := by
  rw [List.any_eq_true, List.mem_map]
  constructor
  · rintro ⟨p, hp, hpk⟩
    exact ⟨p, hp, beq_iff_eq.mp hpk⟩
  · rintro ⟨p, hp, hpk⟩
    exact ⟨p, hp, beq_iff_eq.mpr hpk⟩

theorem mapInsert_of_mem {m : List (String × Nat)} {kv : String × Nat}
    (h : m.any (fun p => p.1 == kv.1) = true) :
    (mapInsert m kv).length = m.length ∧
    (mapInsert m kv).map Prod.fst = m.map Prod.fst := by
  have hthen : mapInsert m kv = m.map (fun p => if p.1 == kv.1 then kv else p) := by
    unfold mapInsert
    rw [if_pos h]
  refine ⟨by rw [hthen, List.length_map], ?_⟩
  rw [hthen, List.map_map]
  refine List.map_congr_left ?_
  intro p _hp
  simp only [Function.comp_apply]
  split_ifs with hc
  · exact (show p.1 = kv.1 by simpa using hc).symm
  · rfl

theorem mapInsert_of_not_mem {m : List (String × Nat)} {kv : String × Nat}
    (h : ¬ m.any (fun p => p.1 == kv.1) = true) :
    mapInsert m kv = m ++ [kv] := by
  simp [mapInsert, h]

theorem jsMapOfList_append (ps : List (String × Nat)) (kv : String × Nat) :
    jsMapOfList (ps ++ [kv]) = mapInsert (jsMapOfList ps) kv := by
  simp [jsMapOfList, List.foldl_append]

theorem jsMapOfList_keys_mem (ps : List (String × Nat)) :
    ∀ k, k ∈ (jsMapOfList ps).map Prod.fst ↔ k ∈ ps.map Prod.fst := by
  induction ps using List.reverseRecOn with
  | nil => simp [jsMapOfList]
  | append_singleton ps kv ih =>
    intro k
    rw [jsMapOfList_append]
    by_cases h : (jsMapOfList ps).any (fun p => p.1 == kv.1) = true
    · rw [(mapInsert_of_mem h).2, List.map_append]
      have hkv : kv.1 ∈ ps.map Prod.fst := (ih kv.1).mp ((any_key_eq _ _).mp h)
      simp only [List.mem_append, List.map_cons, List.map_nil, List.mem_singleton]
      constructor
      · intro hk
        exact Or.inl ((ih k).mp hk)
      · rintro (hk | hk2)
        · exact (ih k).mpr hk
        · exact (ih k).mpr (by rw [hk2]; exact hkv)
    · rw [mapInsert_of_not_mem h, List.map_append, List.map_append]
      simp only [List.mem_append]
      exact or_congr (ih k) Iff.rfl

theorem jsMapOfList_eq_of_nodup (ps : List (String × Nat))
    (h : (ps.map Prod.fst).Nodup) : jsMapOfList ps = ps := by
  induction ps using List.reverseRecOn with
  | nil => rfl
  | append_singleton ps kv ih =>
    rw [List.map_append] at h
    rcases List.nodup_append.mp h with ⟨h1, _h2, h3⟩
    have hnot : ¬ (jsMapOfList ps).any (fun p => p.1 == kv.1) = true := by
      intro hc
      have : kv.1 ∈ ps.map Prod.fst := (jsMapOfList_keys_mem ps kv.1).mp ((any_key_eq _ _).mp hc)
      exact h3 this (by simp)
    rw [jsMapOfList_append, mapInsert_of_not_mem hnot, ih h1]

theorem jsMapOfList_length_le (ps : List (String × Nat)) :
    (jsMapOfList ps).length ≤ ps.length := by
  induction ps using List.reverseRecOn with
  | nil => simp [jsMapOfList]
  | append_singleton ps kv ih =>
    rw [jsMapOfList_append]
    by_cases h : (jsMapOfList ps).any (fun p => p.1 == kv.1) = true
    · have := (mapInsert_of_mem h).1
      simp only [this, List.length_append, List.length_singleton]
      omega
    · rw [mapInsert_of_not_mem h]
      simp only [List.length_append, List.length_singleton]
      omega

theorem jsMapOfList_length_lt_of_dup (ps : List (String × Nat))
    (h : ¬ (ps.map Prod.fst).Nodup) : (jsMapOfList ps).length < ps.length := by
  induction ps using List.reverseRecOn with
  | nil => exact absurd List.nodup_nil h
  | append_singleton ps kv ih =>
    rw [jsMapOfList_append]
    by_cases hd : (ps.map Prod.fst).Nodup
    · have hkv : kv.1 ∈ ps.map Prod.fst := by
        by_contra hkv
        refine h ?_
        rw [List.map_append, List.nodup_append]
        exact ⟨hd, by simp, by
          intro a ha hb
          simp only [List.map_cons, List.map_nil, List.mem_singleton] at hb
          exact hkv (hb ▸ ha)⟩
      have hmem : (jsMapOfList ps).any (fun p => p.1 == kv.1) = true :=
        (any_key_eq _ _).mpr ((jsMapOfList_keys_mem ps kv.1).mpr hkv)
      have hlen := (mapInsert_of_mem hmem).1
      have hle := jsMapOfList_length_le ps
      simp only [hlen, List.length_append, List.length_singleton]
      omega
    · have hlt := ih hd
      have : (mapInsert (jsMapOfList ps) kv).length ≤ (jsMapOfList ps).length + 1 := by
        by_cases hm : (jsMapOfList ps).any (fun p => p.1 == kv.1) = true
        · have := (mapInsert_of_mem hm).1
          omega
        · rw [mapInsert_of_not_mem hm]
          simp
      simp only [List.length_append, List.length_singleton]
      omega

theorem labelPairs_keys (labels : List String) :
    (labelPairs labels).map Prod.fst = labels := by
  simp only [labelPairs, List.map_map]
  have : (Prod.fst ∘ fun p : Nat × String => (p.2, p.1)) = Prod.snd := by
    funext p
    rfl
  rw [this, List.enumFrom_map_snd]

theorem labelPairs_length (labels : List String) :
    (labelPairs labels).length = labels.length := by
  have := congrArg List.length (labelPairs_keys labels)
  simpa using this

theorem labelPairs_find?_from (labels : List String) (hnd : labels.Nodup) :
    ∀ (n i : Nat) (h : i < labels.length),
      ((labels.enumFrom n).map (fun p => (p.2, p.1))).find?
          (fun p => p.1 == labels.get ⟨i, h⟩)
        = some (labels.get ⟨i, h⟩, n + i) := by
  induction labels with
  | nil =>
    intro n i h
    simp at h
  | cons a t ih =>
    intro n i h
    rw [List.enumFrom_cons]
    match i with
    | 0 =>
      simp [List.find?]
    | j + 1 =>
      have ht : j < t.length := by simpa using h
      have hget : (a :: t).get ⟨j + 1, h⟩ = t.get ⟨j, ht⟩ := rfl
      have hfalse : ((a, n).1 == (a :: t).get ⟨j + 1, h⟩) = false := by
        rw [hget, beq_eq_false_iff_ne]
        intro hc
        refine (List.nodup_cons.mp hnd).1 ?_
        rw [show a = t.get ⟨j, ht⟩ from hc]
        exact List.get_mem t j ht
      rw [List.map_cons]
      show List.find? (fun p => p.1 == (a :: t).get ⟨j + 1, h⟩)
          ((a, n) :: (t.enumFrom (n + 1)).map (fun p => (p.2, p.1))) = _
      simp only [List.find?_cons, hfalse, cond_false]
      rw [hget, ih (List.nodup_cons.mp hnd).2 (n + 1) j ht]
      congr 2
      omega

theorem mapGet_labelPairs (labels : List String) (hnd : labels.Nodup)
    (i : Nat) (h : i < labels.length) :
    mapGet (labelPairs labels) (labels.get ⟨i, h⟩) = some i := by
  unfold mapGet labelPairs
  rw [labelPairs_find?_from labels hnd 0 i h]
  simp

theorem mapGet_eq_none (labels : List String) (s : String) (hs : s ∉ labels) :
    mapGet (labelPairs labels) s = none := by
  unfold mapGet
  rw [List.find?_eq_none.mpr]
  · rfl
  · intro p hp hc
    have : p.1 ∈ (labelPairs labels).map Prod.fst := List.mem_map_of_mem _ hp
    rw [labelPairs_keys labels] at this
    exact hs ((beq_iff_eq.mp hc) ▸ this)

/-- The window covering all of a non-empty buffer is the buffer itself
(the library's default `left = 0`, `right = arr.length - 1`). -/
theorem window_full (a : List Int) (h : a ≠ []) : window a 0 (a.length - 1) = a := by
  have h1 : a.length - 1 + 1 - 0 = a.length := by
    have := List.length_pos.mpr h
    omega
  simp [window, h1]

/-! ## Claim theorems -/

/-- C2: `computeStats` applied to an empty input buffer fails with
`EmptyBufferError` rather than returning a result, and on every non-empty
buffer it returns the statistics record, so the NaN-producing empty-input
path of the source `getChannelStats` is never reached. -/
theorem c2_empty_buffer_rejected (arr : Buffer) :
    (arr = [] → computeStats arr = .error .emptyBuffer) ∧
    (arr ≠ [] → computeStats arr = .ok (getChannelStats arr)) := by
  constructor
  · intro h
    subst h
    rfl
  · intro h
    simp [computeStats, h]

theorem c2_empty_buffer_rejected_witness :
    computeStats [] = .error .emptyBuffer ∧
    computeStats [3] = .ok (getChannelStats [3]) :=
  ⟨(c2_empty_buffer_rejected []).1 rfl, (c2_empty_buffer_rejected [3]).2 (by simp)⟩

/-- C3: for every non-empty buffer (and any selection primitive — the first
pass runs before any mutation), `domain` is exactly `[min(buf), max(buf)]`:
each bound is attained by a sample and bounds all samples. -/
theorem c3_domain_min_max (qs : List Int → Nat → Nat → Nat → List Int)
    (arr : Buffer) (h : arr ≠ []) :
    ((getChannelStatsWith qs arr).domain.1 ∈ arr ∧
      ∀ x ∈ arr, (getChannelStatsWith qs arr).domain.1 ≤ x) ∧
    ((getChannelStatsWith qs arr).domain.2 ∈ arr ∧
      ∀ x ∈ arr, x ≤ (getChannelStatsWith qs arr).domain.2) := by
  obtain ⟨v, hv, hvmem, hvle⟩ := jsMin_spec arr h
  obtain ⟨w, hw, hwmem, hwle⟩ := jsMax_spec arr h
  have h1 : (getChannelStatsWith qs arr).domain.1 = v := by
    show (jsMin arr).getD 0 = v
    rw [hv]
    rfl
  have h2 : (getChannelStatsWith qs arr).domain.2 = w := by
    show (jsMax arr).getD 0 = w
    rw [hw]
    rfl
  rw [h1, h2]
  exact ⟨⟨hvmem, hvle⟩, ⟨hwmem, hwle⟩⟩

theorem c3_domain_min_max_witness :
    ((getChannelStatsWith sortSelect [5, 2, 9]).domain.1 ∈ [5, 2, 9] ∧
      ∀ x ∈ [5, 2, 9], (getChannelStatsWith sortSelect [5, 2, 9]).domain.1 ≤ x) ∧
    ((getChannelStatsWith sortSelect [5, 2, 9]).domain.2 ∈ [5, 2, 9] ∧
      ∀ x ∈ [5, 2, 9], x ≤ (getChannelStatsWith sortSelect [5, 2, 9]).domain.2) :=
  c3_domain_min_max sortSelect [5, 2, 9] (by simp)

/-- C7: for every positive tile width and height, the derived tile size is a
power of two, is at most `min(tileWidth, tileHeight)`, and no power of two in
that range exceeds it (i.e. it is the largest power of two not exceeding the
minimum); and `prevPowerOf2 300 = 256`, `prevPowerOf2 256 = 256`. -/
theorem c7_tile_size_pow2 (w h : Nat) (hw : 0 < w) (hh : 0 < h) :
    (∃ k, guessTiffTileSize w h = 2 ^ k) ∧
    guessTiffTileSize w h ≤ min w h ∧
    (∀ p k, p = 2 ^ k → p ≤ min w h → p ≤ guessTiffTileSize w h) ∧
    prevPowerOf2 300 = 256 ∧ prevPowerOf2 256 = 256 := by
  have hm : min w h ≠ 0 := by omega
  refine ⟨⟨Nat.log2 (min w h), rfl⟩, Nat.log2_self_le hm, ?_,
    by simp [prevPowerOf2, Nat.log2], by simp [prevPowerOf2, Nat.log2]⟩
  intro p k hp hle
  subst hp
  have h2 : min w h < 2 ^ (Nat.log2 (min w h) + 1) := Nat.lt_log2_self
  have hk : k ≤ Nat.log2 (min w h) := by
    by_contra hk
    have h3 : Nat.log2 (min w h) + 1 ≤ k := by omega
    have h4 : 2 ^ (Nat.log2 (min w h) + 1) ≤ 2 ^ k := Nat.pow_le_pow_right (by omega) h3
    omega
  exact Nat.pow_le_pow_right (by omega) hk

theorem c7_tile_size_pow2_witness :
    (∃ k, guessTiffTileSize 300 513 = 2 ^ k) ∧
    guessTiffTileSize 300 513 ≤ min 300 513 ∧
    (∀ p k, p = 2 ^ k → p ≤ min 300 513 → p ≤ guessTiffTileSize 300 513) ∧
    prevPowerOf2 300 = 256 ∧ prevPowerOf2 256 = 256 :=
  c7_tile_size_pow2 300 513 (by decide) (by decide)

/-- C8: `isInterleaved` returns true exactly when the last element of a
non-empty shape is `3` or `4`; and the three reference examples of the
spec evaluate as stated. -/
theorem c8_isInterleaved_last_dim (shape : List Nat) (h : shape ≠ []) :
    (isInterleaved shape = true ↔ (shape.getLast h = 3 ∨ shape.getLast h = 4)) ∧
    isInterleaved [1, 24, 24] = false ∧
    isInterleaved [1, 24, 24, 3] = true ∧ isInterleaved [1, 24, 24, 4] = true := by
  refine ⟨?_, by decide, by decide, by decide⟩
  have hlen : shape.length - 1 < shape.length := by
    have := List.length_pos.mpr h
    omega
  rw [List.getLast_eq_getElem]
  show (shape.getD (shape.length - 1) 0 == 3 || shape.getD (shape.length - 1) 0 == 4) = true
      ↔ _
  rw [List.getD_eq_getElem _ _ hlen]
  simp [Bool.or_eq_true, beq_iff_eq]

theorem c8_isInterleaved_last_dim_witness :
    (isInterleaved [1, 24, 24, 3] = true ↔
      ([1, 24, 24, 3].getLast (by simp) = 3 ∨ [1, 24, 24, 3].getLast (by simp) = 4)) ∧
    isInterleaved [1, 24, 24] = false ∧
    isInterleaved [1, 24, 24, 3] = true ∧ isInterleaved [1, 24, 24, 4] = true :=
  c8_isInterleaved_last_dim [1, 24, 24, 3] (by simp)

/-- C9: `getChannelStats` is deterministic across independent copies:
element-wise identical buffers yield identical results in every field
(the embedding is a pure function, so the in-place mutation of one copy
cannot influence the other). -/
theorem c9_stats_deterministic (a b : Buffer) (hlen : a.length = b.length)
    (helem : ∀ i, i < a.length → a.getD i 0 = b.getD i 0) :
    getChannelStats a = getChannelStats b := by
  have hab : a = b := by
    refine List.ext_get hlen ?_
    intro n h1 h2
    have h3 := helem n h1
    rwa [List.getD_eq_getElem _ _ h1, List.getD_eq_getElem _ _ h2] at h3
  rw [hab]

theorem c9_stats_deterministic_witness :
    getChannelStats [7, 1, 3] = getChannelStats [7, 1, 3] :=
  c9_stats_deterministic [7, 1, 3] [7, 1, 3] rfl (fun _ _ => rfl)

/-- C10: the buffer `getChannelStats` leaves behind (after its three in-place
selections) is a permutation of the input: the same multiset of samples,
possibly reordered; nothing is inserted, removed or overwritten. -/
theorem c10_buffer_permutation (qs : List Int → Nat → Nat → Nat → List Int)
    (S : SelectSpec qs) (arr : Buffer) : (statsArr3 qs arr).Perm arr :=
  ((S.perm _ _ _ _).trans (S.perm _ _ _ _)).trans (S.perm _ _ _ _)

theorem c10_buffer_permutation_witness :
    (statsArr3 sortSelect [2, 1, 3]).Perm [2, 1, 3] :=
  c10_buffer_permutation sortSelect sortSelect_spec [2, 1, 3]

/-- C1 counterexample: on the two-sample buffer `[0, 1]` the code computes
`median = 1` but `q3 = 0`, so `q1 <= median <= q3` fails.  The third
selection targets rank `3 * Math.floor(2 / 4) = 0`, which lies left of its
search window `[median_index, n - 1] = [1, 1]`; the selection loop
(`while (right > left)`) exits immediately and `q3` reads the untouched
minimum at index `0`. -/
theorem c1_counterexample :
    ¬ ((getChannelStats [0, 1]).q1 ≤ (getChannelStats [0, 1]).median ∧
       (getChannelStats [0, 1]).median ≤ (getChannelStats [0, 1]).q3) := by
  decide

/-- C1 (amended): for every non-empty buffer whose length is neither 2 nor 3,
and any selection primitive satisfying the library contract,
`q1 ≤ median ≤ q3` with the ranks and windows exactly as in the source.
Lengths 2 and 3 are the only ones where the third selection's target rank
`3 * floor(n / 4) = 0` falls outside its window `[floor(n / 2), n - 1]`: at
length 2 the bound provably fails (see the counterexample), and at length 3
the out-of-window call is outside the selection library's documented
contract, so no contract-level statement covers it. -/
theorem c1_quartile_order_amended (qs : List Int → Nat → Nat → Nat → List Int)
    (S : SelectSpec qs) (arr : Buffer) (h1 : arr ≠ [])
    (h2 : arr.length ≠ 2) (h3 : arr.length ≠ 3) :
    (getChannelStatsWith qs arr).q1 ≤ (getChannelStatsWith qs arr).median ∧
    (getChannelStatsWith qs arr).median ≤ (getChannelStatsWith qs arr).q3 := by
  show (statsArr2 qs arr).getD (q1Loc arr) 0 ≤ (statsArr1 qs arr).getD (midLoc arr) 0 ∧
    (statsArr1 qs arr).getD (midLoc arr) 0 ≤ (statsArr3 qs arr).getD (q3Loc arr) 0
  have hpos : 0 < arr.length := List.length_pos.mpr h1
  rcases Nat.lt_or_ge arr.length 4 with hsmall | hge4
  · -- the buffer has exactly one sample: all three selections are no-ops
    have hone : arr.length = 1 := by omega
    have e1 : statsArr1 qs arr = arr := S.noop _ _ _ _ (by omega)
    have e2 : statsArr2 qs arr = arr := by
      unfold statsArr2
      rw [e1]
      exact S.noop _ _ _ _ (by simp only [midLoc, hone]; omega)
    have e3 : statsArr3 qs arr = arr := by
      unfold statsArr3
      rw [e2]
      exact S.noop _ _ _ _ (by simp only [midLoc, hone]; omega)
    have l1 : q1Loc arr = 0 := by simp [q1Loc, hone]
    have l2 : midLoc arr = 0 := by simp [midLoc, hone]
    have l3 : q3Loc arr = 0 := by simp [q3Loc, hone]
    rw [e1, e2, e3, l1, l2, l3]
    exact ⟨le_rfl, le_rfl⟩
  · -- length at least 4: all three selections are in contract
    have hmid_lt : midLoc arr < arr.length := by simp only [midLoc]; omega
    have hq1_lt : q1Loc arr < midLoc arr := by simp only [q1Loc, midLoc]; omega
    have hmid_le_q3 : midLoc arr ≤ q3Loc arr := by simp only [midLoc, q3Loc]; omega
    have hq3_le : q3Loc arr ≤ arr.length - 1 := by simp only [q3Loc]; omega
    have hb1 : midLoc arr ≤ arr.length - 1 := by simp only [midLoc]; omega
    have hb2 : arr.length - 1 < arr.length := by omega
    have hq1mid : q1Loc arr ≤ midLoc arr := le_of_lt hq1_lt
    simp only [statsArr1, statsArr2, statsArr3]
    obtain ⟨a1, ha1⟩ : ∃ x, qs arr (midLoc arr) 0 (arr.length - 1) = x := ⟨_, rfl⟩
    rw [ha1]
    obtain ⟨a2, ha2⟩ : ∃ x, qs a1 (q1Loc arr) 0 (midLoc arr) = x := ⟨_, rfl⟩
    rw [ha2]
    obtain ⟨a3, ha3⟩ : ∃ x, qs a2 (q3Loc arr) (midLoc arr) (arr.length - 1) = x := ⟨_, rfl⟩
    rw [ha3]
    have hlen1 : a1.length = arr.length := by
      rw [← ha1]
      exact S.size_eq _ _ _ _
    have hlen2 : a2.length = arr.length := by
      rw [← ha2, S.size_eq, hlen1]
    have hlen3 : a3.length = arr.length := by
      rw [← ha3, S.size_eq, hlen2]
    have hple1 : ∀ i, i < midLoc arr → a1.getD i 0 ≤ a1.getD (midLoc arr) 0 := by
      intro i hi
      rw [← ha1]
      exact S.part_le arr _ _ _ (Nat.zero_le _) hb1 hb2 i (Nat.zero_le _) hi
    have hpge1 : ∀ i, midLoc arr < i → i ≤ arr.length - 1 →
        a1.getD (midLoc arr) 0 ≤ a1.getD i 0 := by
      intro i hi1 hi2
      rw [← ha1]
      exact S.part_ge arr _ _ _ (Nat.zero_le _) hb1 hb2 i hi1 hi2
    have hwp2 : (window a2 0 (midLoc arr)).Perm (window a1 0 (midLoc arr)) := by
      rw [← ha2]
      exact S.window_perm a1 _ _ _ (Nat.zero_le _) hq1mid (by rw [hlen1]; exact hmid_lt)
    have hstay2 : a2.getD (midLoc arr) 0 = a1.getD (midLoc arr) 0 := by
      rw [← ha2]
      refine S.max_stay a1 _ _ _ (Nat.zero_le _) hq1mid (by rw [hlen1]; exact hmid_lt) ?_
      intro i _ hi
      rcases Nat.lt_or_ge i (midLoc arr) with hlt | hge
      · exact hple1 i hlt
      · rw [show i = midLoc arr by omega]
    have hframe2 : ∀ i, midLoc arr < i → i < arr.length → a2.getD i 0 = a1.getD i 0 := by
      intro i hi1 hi2
      rw [← ha2]
      exact S.frame a1 _ _ _ (Nat.zero_le _) hq1mid (by rw [hlen1]; exact hmid_lt) i
        (by rw [hlen1]; exact hi2) (Or.inr hi1)
    have hwp3 : (window a3 (midLoc arr) (arr.length - 1)).Perm
        (window a2 (midLoc arr) (arr.length - 1)) := by
      rw [← ha3]
      exact S.window_perm a2 _ _ _ hmid_le_q3 hq3_le (by rw [hlen2]; omega)
    constructor
    · -- q1 ≤ median
      have hmem : a2.getD (q1Loc arr) 0 ∈ window a2 0 (midLoc arr) :=
        mem_window (Nat.zero_le _) hq1mid (by rw [hlen2]; exact hmid_lt)
      obtain ⟨i, _, himid, hieq⟩ :=
        mem_window_elim (by rw [hlen1]; exact hmid_lt) (hwp2.mem_iff.mp hmem)
      rcases Nat.lt_or_ge i (midLoc arr) with hlt | hge
      · rw [← hieq]
        exact hple1 i hlt
      · rw [← hieq, show i = midLoc arr by omega]
    · -- median ≤ q3
      have hmem : a3.getD (q3Loc arr) 0 ∈ window a3 (midLoc arr) (arr.length - 1) :=
        mem_window hmid_le_q3 hq3_le (by rw [hlen3]; omega)
      obtain ⟨i, hmidi, hin, hieq⟩ :=
        mem_window_elim (by rw [hlen2]; omega) (hwp3.mem_iff.mp hmem)
      rcases Nat.lt_or_ge (midLoc arr) i with hlt | hge
      · rw [← hieq, hframe2 i hlt (by omega)]
        exact hpge1 i hlt hin
      · rw [← hieq, show i = midLoc arr by omega, hstay2]

theorem c1_quartile_order_amended_witness :
    (getChannelStatsWith sortSelect [5, 1, 4, 2, 3]).q1
        ≤ (getChannelStatsWith sortSelect [5, 1, 4, 2, 3]).median ∧
    (getChannelStatsWith sortSelect [5, 1, 4, 2, 3]).median
        ≤ (getChannelStatsWith sortSelect [5, 1, 4, 2, 3]).q3 :=
  c1_quartile_order_amended sortSelect sortSelect_spec [5, 1, 4, 2, 3]
    (by simp) (by simp) (by simp)

/-- C4: `contrastLimits` is computed only over the strictly-positive samples.
With `m` the count of samples `> 0`, the low bound is the element of rank
`floor(m * 0.0005) = m / 2000` and the high bound the element of rank
`floor(m * (1 - 0.0005)) = m * 1999 / 2000` of the sorted filtered array;
when no sample is positive, both bounds are `0`. -/
theorem c4_contrast_limits_positive_ranks (qs : List Int → Nat → Nat → Nat → List Int)
    (S : SelectSpec qs) (arr : Buffer) :
    ((arr.filter (fun x => decide (0 < x))).length = 0 →
      (getChannelStatsWith qs arr).contrastLimits = (0, 0)) ∧
    (0 < (arr.filter (fun x => decide (0 < x))).length →
      (getChannelStatsWith qs arr).contrastLimits =
        ((sortList (arr.filter (fun x => decide (0 < x)))).getD
            (bottomCutoffLoc (arr.filter (fun x => decide (0 < x))).length) 0,
         (sortList (arr.filter (fun x => decide (0 < x)))).getD
            (topCutoffLoc (arr.filter (fun x => decide (0 < x))).length) 0)) := by
  have hperm3 : (statsArr3 qs arr).Perm arr :=
    ((S.perm _ _ _ _).trans (S.perm _ _ _ _)).trans (S.perm _ _ _ _)
  have hcperm : (cutoffArr qs arr).Perm (arr.filter (fun x => decide (0 < x))) := by
    unfold cutoffArr
    exact hperm3.filter _
  have hm : (cutoffArr qs arr).length = (arr.filter (fun x => decide (0 < x))).length :=
    hcperm.length_eq
  have hrfl : (getChannelStatsWith qs arr).contrastLimits
      = ((cutoff2 qs arr).getD (bottomCutoffLoc (cutoffArr qs arr).length) 0,
         (cutoff2 qs arr).getD (topCutoffLoc (cutoffArr qs arr).length) 0) := rfl
  constructor
  · intro h0
    have hc0 : cutoffArr qs arr = [] := List.eq_nil_of_length_eq_zero (by omega)
    have hcut1 : cutoff1 qs arr = [] := by
      unfold cutoff1
      rw [hc0]
      exact S.noop _ _ _ _ (by simp [topCutoffLoc])
    have hcut2 : cutoff2 qs arr = [] := by
      unfold cutoff2
      rw [hcut1, hc0]
      exact S.noop _ _ _ _ (by simp [topCutoffLoc])
    rw [hrfl, hcut2]
    rfl
  · intro hpos
    rw [hrfl]
    obtain ⟨c, hc⟩ : ∃ x, cutoffArr qs arr = x := ⟨_, rfl⟩
    rw [hc] at hm hcperm ⊢
    have hmpos : 0 < c.length := by omega
    have hcne : c ≠ [] := by
      intro hnil
      rw [hnil] at hmpos
      simp at hmpos
    have htop_le : topCutoffLoc c.length ≤ c.length - 1 := by
      simp only [topCutoffLoc]
      omega
    have hbot_le : bottomCutoffLoc c.length ≤ topCutoffLoc c.length := by
      simp only [topCutoffLoc, bottomCutoffLoc]
      omega
    have hcut1 : cutoff1 qs arr = qs c (topCutoffLoc c.length) 0 (c.length - 1) := by
      unfold cutoff1
      rw [hc]
    have hcut2 : cutoff2 qs arr
        = qs (qs c (topCutoffLoc c.length) 0 (c.length - 1))
            (bottomCutoffLoc c.length) 0 (topCutoffLoc c.length) := by
      unfold cutoff2
      rw [hcut1, hc]
    rw [hcut2]
    obtain ⟨c1, hc1⟩ : ∃ x, qs c (topCutoffLoc c.length) 0 (c.length - 1) = x := ⟨_, rfl⟩
    rw [hc1]
    obtain ⟨c2, hc2⟩ : ∃ x, qs c1 (bottomCutoffLoc c.length) 0 (topCutoffLoc c.length) = x :=
      ⟨_, rfl⟩
    rw [hc2]
    have hlen_c1 : c1.length = c.length := by
      rw [← hc1]
      exact S.size_eq _ _ _ _
    have hb2 : c.length - 1 < c.length := by omega
    have hple : ∀ i, i < topCutoffLoc c.length →
        c1.getD i 0 ≤ c1.getD (topCutoffLoc c.length) 0 := by
      intro i hi
      rw [← hc1]
      exact S.part_le c _ _ _ (Nat.zero_le _) htop_le hb2 i (Nat.zero_le _) hi
    have hpge : ∀ j, topCutoffLoc c.length < j → j ≤ c.length - 1 →
        c1.getD (topCutoffLoc c.length) 0 ≤ c1.getD j 0 := by
      intro j hj1 hj2
      rw [← hc1]
      exact S.part_ge c _ _ _ (Nat.zero_le _) htop_le hb2 j hj1 hj2
    have hsortc : sortList c = sortList (arr.filter (fun x => decide (0 < x))) :=
      sortList_eq_of_sorted ((sortList_perm c).trans hcperm) (sortList_sorted c)
    have hsort1 : sortList c1 = sortList c := by
      refine sortList_eq_of_sorted ?_ (sortList_sorted c1)
      refine (sortList_perm c1).trans ?_
      rw [← hc1]
      exact S.perm _ _ _ _
    -- high bound: the selected top element stays in place through the
    -- second (bounded) selection and is the global rank-top element
    have hrank1 : c1.getD (topCutoffLoc c.length) 0
        = (sortList c).getD (topCutoffLoc c.length) 0 := by
      rw [← hc1]
      have h1 := S.rank c (topCutoffLoc c.length) 0 (c.length - 1)
        (Nat.zero_le _) htop_le hb2
      rw [window_full c hcne, Nat.sub_zero] at h1
      exact h1
    have hstay : c2.getD (topCutoffLoc c.length) 0 = c1.getD (topCutoffLoc c.length) 0 := by
      rw [← hc2]
      refine S.max_stay c1 _ _ _ (Nat.zero_le _) hbot_le (by rw [hlen_c1]; omega) ?_
      intro i _ hi
      rcases Nat.lt_or_ge i (topCutoffLoc c.length) with hlt | hge
      · exact hple i hlt
      · rw [show i = topCutoffLoc c.length by omega]
    -- low bound: rank within the prefix window equals the global rank
    have hrank2 : c2.getD (bottomCutoffLoc c.length) 0
        = (sortList (window c1 0 (topCutoffLoc c.length))).getD (bottomCutoffLoc c.length) 0 := by
      rw [← hc2]
      have h1 := S.rank c1 (bottomCutoffLoc c.length) 0 (topCutoffLoc c.length)
        (Nat.zero_le _) hbot_le (by rw [hlen_c1]; omega)
      rw [Nat.sub_zero] at h1
      exact h1
    have hpivot : (sortList c1).take (topCutoffLoc c.length + 1)
        = sortList (window c1 0 (topCutoffLoc c.length)) := by
      refine sortList_take_pivot (by rw [hlen_c1]; omega) hple ?_
      intro j hj1 hj2
      exact hpge j hj1 (by rw [hlen_c1] at hj2; omega)
    have hlow : c2.getD (bottomCutoffLoc c.length) 0
        = (sortList c).getD (bottomCutoffLoc c.length) 0 := by
      rw [hrank2, ← hpivot, getD_take (by omega), hsort1]
    have hhigh : c2.getD (topCutoffLoc c.length) 0
        = (sortList c).getD (topCutoffLoc c.length) 0 := by
      rw [hstay, hrank1]
    rw [hlow, hhigh, hsortc, hm]

theorem c4_contrast_limits_positive_ranks_witness :
    (([(5 : Int), -2, 3, 0, 8].filter (fun x => decide (0 < x))).length = 0 →
      (getChannelStatsWith sortSelect [5, -2, 3, 0, 8]).contrastLimits = (0, 0)) ∧
    (0 < ([(5 : Int), -2, 3, 0, 8].filter (fun x => decide (0 < x))).length →
      (getChannelStatsWith sortSelect [5, -2, 3, 0, 8]).contrastLimits =
        ((sortList ([(5 : Int), -2, 3, 0, 8].filter (fun x => decide (0 < x)))).getD
            (bottomCutoffLoc ([(5 : Int), -2, 3, 0, 8].filter (fun x => decide (0 < x))).length) 0,
         (sortList ([(5 : Int), -2, 3, 0, 8].filter (fun x => decide (0 < x)))).getD
            (topCutoffLoc ([(5 : Int), -2, 3, 0, 8].filter (fun x => decide (0 < x))).length) 0)) :=
  c4_contrast_limits_positive_ranks sortSelect sortSelect_spec [5, -2, 3, 0, 8]

/-- C5: the 3D statistics variant computes the per-plane statistics of
exactly three z-planes of the last (coarsest) pyramid level — the first
(`z = 0`), the middle (`z = floor(sizeZ / 2)`), and the last
(`z = sizeZ - 1`), with `sizeZ` the z extent of the effective
coarsest-resolution volume — and merges them by taking the minimum of the
three lower bounds and the maximum of the three upper bounds, for both the
domain and the slider range. -/
theorem c5_stats3d_three_planes_merge (loader : List RasterSource) (h : loader ≠ []) :
    getSingleSelectionStats3D loader =
      some { domain :=
              (min (min (getChannelStatsAviv ((loader.getLast h).raster 0)).domain.1
                    (getChannelStatsAviv ((loader.getLast h).raster
                      (sizeZOf loader (loader.getLast h) / 2))).domain.1)
                  (getChannelStatsAviv ((loader.getLast h).raster
                    (sizeZOf loader (loader.getLast h) - 1))).domain.1,
               max (max (getChannelStatsAviv ((loader.getLast h).raster 0)).domain.2
                    (getChannelStatsAviv ((loader.getLast h).raster
                      (sizeZOf loader (loader.getLast h) / 2))).domain.2)
                  (getChannelStatsAviv ((loader.getLast h).raster
                    (sizeZOf loader (loader.getLast h) - 1))).domain.2)
             slider :=
              (min (min (getChannelStatsAviv ((loader.getLast h).raster 0)).autoSliders.1
                    (getChannelStatsAviv ((loader.getLast h).raster
                      (sizeZOf loader (loader.getLast h) / 2))).autoSliders.1)
                  (getChannelStatsAviv ((loader.getLast h).raster
                    (sizeZOf loader (loader.getLast h) - 1))).autoSliders.1,
               max (max (getChannelStatsAviv ((loader.getLast h).raster 0)).autoSliders.2
                    (getChannelStatsAviv ((loader.getLast h).raster
                      (sizeZOf loader (loader.getLast h) / 2))).autoSliders.2)
                  (getChannelStatsAviv ((loader.getLast h).raster
                    (sizeZOf loader (loader.getLast h) - 1))).autoSliders.2) } := by
  unfold getSingleSelectionStats3D
  rw [List.getLast?_eq_getLast loader h]

theorem c5_stats3d_three_planes_merge_witness :
    getSingleSelectionStats3D
        [⟨["z", "y", "x"], [4, 1, 2], fun z => [Int.ofNat z, 7]⟩] =
      some { domain := (0, 7), slider := (2, 7) } := by
  rw [c5_stats3d_three_planes_merge
    [⟨["z", "y", "x"], [4, 1, 2], fun z => [Int.ofNat z, 7]⟩] (by simp)]
  decide

/-- C6: `getDims` fails at construction whenever the label list contains a
duplicate; for every duplicate-free label list it succeeds and the returned
lookup maps each label to its original integer position (a pure function, so
the answers are independent of call order), while lookup of any name not in
the list fails with the unknown-dimension error. -/
theorem c6_getDims_contract (labels : List String) :
    (¬ labels.Nodup → getDims labels = .error .duplicateLabel) ∧
    (labels.Nodup → ∃ f, getDims labels = .ok f ∧
      (∀ (i : Nat) (hi : i < labels.length), f (labels.get ⟨i, hi⟩) = .ok i) ∧
      (∀ s, s ∉ labels → f s = .error .unknownDimension)) := by
  constructor
  · intro h
    have hdup : ¬ ((labelPairs labels).map Prod.fst).Nodup := by
      rw [labelPairs_keys]
      exact h
    have hlt := jsMapOfList_length_lt_of_dup _ hdup
    rw [labelPairs_length] at hlt
    unfold getDims
    rw [if_pos (by omega)]
  · intro h
    have heq : jsMapOfList (labelPairs labels) = labelPairs labels :=
      jsMapOfList_eq_of_nodup _ (by rw [labelPairs_keys]; exact h)
    have hlen : (jsMapOfList (labelPairs labels)).length = labels.length := by
      rw [heq, labelPairs_length]
    refine ⟨fun name =>
      match mapGet (jsMapOfList (labelPairs labels)) name with
      | some i => .ok i
      | none => .error .unknownDimension, ?_, ?_, ?_⟩
    · unfold getDims
      rw [if_neg (by omega)]
    · intro i hi
      show (match mapGet (jsMapOfList (labelPairs labels)) (labels.get ⟨i, hi⟩) with
        | some j => Except.ok j
        | none => Except.error DimsError.unknownDimension) = Except.ok i
      rw [heq, mapGet_labelPairs labels h i hi]
    · intro s hs
      show (match mapGet (jsMapOfList (labelPairs labels)) s with
        | some j => Except.ok j
        | none => Except.error DimsError.unknownDimension)
          = Except.error DimsError.unknownDimension
      rw [heq, mapGet_eq_none labels s hs]

theorem c6_getDims_contract_witness :
    getDims ["t", "z", "c", "t"] = .error .duplicateLabel :=
  (c6_getDims_contract ["t", "z", "c", "t"]).1 (by decide)

end Viv
